import Mathlib

/-!
Shallow embedding of `make_meme.py` (meme compositor built on PIL).

Conventions of the embedding:
* Raster images are a size plus a total pixel function `ℤ → ℤ → Color`;
  only in-bounds pixels are ever constrained by theorems, matching the fact
  that PIL never exposes out-of-bounds reads.
* Python `float` arithmetic is modelled by exact rational arithmetic `ℚ`
  (every Python float is a rational; the quantities computed here are far
  from the rounding boundaries that could distinguish the two).
* Python `int(x)` (truncation toward zero) is `pyInt`; Python `//` on
  integers is `Int.fdiv` (floor division).
* The Lanczos resampling filter is not modelled pixelwise: `fit_image`
  takes the resampler as a parameter, and theorems assume only its
  size contract (PIL's `Image.resize` returns an image of exactly the
  requested size).
* File-system and decoding effects of `make_meme` are modelled by an
  explicit event trace (`Event`) together with `Except` values standing
  for the outcomes of `Image.open` on the fixed asset and the user bytes.
-/

/-- An RGBA pixel value, one byte per channel in the intended range.
Images converted to "RGB" are represented with alpha pinned to 255. -/
structure Color where
  r : ℕ
  g : ℕ
  b : ℕ
  a : ℕ
deriving DecidableEq, Repr

/-- The fill used by the sticker border (`fill="white"`). -/
def Color.white : Color := ⟨255, 255, 255, 255⟩

/-- The letterbox filler of `fit_image` (`(240, 240, 240)`). -/
def Color.filler : Color := ⟨240, 240, 240, 255⟩

/-- The dark caption-panel color (`(29, 29, 31)`). -/
def Color.panelDark : Color := ⟨29, 29, 31, 255⟩

/-- The background color of the canvas (`(220, 220, 220)`). -/
def Color.bgGray : Color := ⟨220, 220, 220, 255⟩

/-- A raster image: a size and a total pixel function.  Out-of-bounds
values of `pix` are irrelevant (never constrained, never observed). -/
structure Image where
  width : ℕ
  height : ℕ
  pix : ℤ → ℤ → Color

/-- `PIL.Image.new(mode, (w, h), color)`. -/
def Image.new (w h : ℕ) (c : Color) : Image := ⟨w, h, fun _ _ => c⟩

/-- `dst.paste(src, (x, y))`: pixels of `src` overwrite the rectangle of
`dst` whose top-left corner is `(x, y)`. -/
def Image.paste (dst src : Image) (x y : ℤ) : Image :=
  { width := dst.width, height := dst.height
    pix := fun p q =>
      if x ≤ p ∧ p < x + src.width ∧ y ≤ q ∧ q < y + src.height then
        src.pix (p - x) (q - y)
      else dst.pix p q }

/-- `img.convert("RGB")`: drop the alpha channel (PIL discards alpha
without compositing). -/
def Image.convertRGB (img : Image) : Image :=
  { img with pix := fun p q => { img.pix p q with a := 255 } }

/-- `img.crop((l, u, r, lo))`: the rectangle from `(l, u)` (inclusive) to
`(r, lo)` (exclusive), re-indexed from `(0, 0)`. -/
def Image.crop (img : Image) (l u r lo : ℤ) : Image :=
  { width := (r - l).toNat, height := (lo - u).toNat
    pix := fun p q => img.pix (p + l) (q + u) }

/-- `PIL.ImageOps.expand(img, border, fill)`: add a `border`-pixel frame
of color `fill` on all four sides. -/
def Image.expand (img : Image) (border : ℕ) (fill : Color) : Image :=
  { width := img.width + 2 * border, height := img.height + 2 * border
    pix := fun p q =>
      if (border : ℤ) ≤ p ∧ p < border + img.width ∧
          (border : ℤ) ≤ q ∧ q < border + img.height then
        img.pix (p - border) (q - border)
      else fill }

/-- Python `int(x)` on a float: truncation toward zero. -/
def pyInt (q : ℚ) : ℤ := if 0 ≤ q then ⌊q⌋ else -⌊-q⌋

/-- The `(new_w, new_h)` computation of `fit_image` (lines 21–29 of
`make_meme.py`): compare the source aspect ratio with the box aspect
ratio and scale the dominating dimension to the box, deriving the other
by the source ratio with truncation. -/
def fitNewDims (w h bw bh : ℕ) : ℕ × ℕ :=
  let img_ratio : ℚ := (w : ℚ) / (h : ℚ)
  let box_ratio : ℚ := (bw : ℚ) / (bh : ℚ)
  if box_ratio < img_ratio then
    (bw, (pyInt ((bw : ℚ) / img_ratio)).toNat)
  else
    ((pyInt ((bh : ℚ) * img_ratio)).toNat, bh)

/-- `fit_image(img, box_w, box_h)`: letterbox-fit `img` into the box,
pasting the resized image centered on a `(240, 240, 240)` canvas.
`resample` stands for `img.resize (·, Image.LANCZOS)`; theorems assume
only that it returns an image of the requested size. -/
def fit_image (resample : Image → ℕ → ℕ → Image) (img : Image)
    (box_w box_h : ℕ) : Image :=
  let nd := fitNewDims img.width img.height box_w box_h
  let resized := resample img nd.1 nd.2
  let canvas := Image.new box_w box_h Color.filler
  let x : ℤ := Int.fdiv ((box_w : ℤ) - (nd.1 : ℤ)) 2
  let y : ℤ := Int.fdiv ((box_h : ℤ) - (nd.2 : ℤ)) 2
  canvas.paste resized x y

/-- A stand-in resampler satisfying the PIL size contract (used only to
instantiate witnesses; theorems quantify over the resampler). -/
def constResample (img : Image) (w h : ℕ) : Image :=
  ⟨w, h, fun _ _ => img.pix 0 0⟩

/-! ## Text layout (`draw_justified_text`, lines 38–58)

`textwrap.wrap` (CPython, default options) is modelled chunk-faithfully:
the text is munged (`expandtabs()` then whitespace replaced by spaces),
split into alternating word and whitespace-run chunks, and greedily
packed into lines — whitespace chunks count toward the width and are
preserved inside a line, a leading whitespace chunk is dropped on every
line after the first, a trailing whitespace chunk is dropped from every
line, and a chunk longer than the width is broken to fill the current
line's remaining space.  Two simplifications remain: the chunk split
does not break words at hyphens/em-dashes as CPython's `wordsep_re`
does, and long-word breaking ignores `break_on_hyphens`; both only
affect where an over-long chunk may be cut, which no property below
exercises (their hypotheses keep every paragraph on a single line). -/

/-- The characters Python `textwrap` treats as whitespace
(`string.whitespace`: space, tab, LF, VT, FF, CR). -/
def pyIsSpace (c : Char) : Bool :=
  c = ' ' || c = '\t' || c = '\n' || c = '\r' ||
  c = Char.ofNat 11 || c = Char.ofNat 12

/-- Python `para.strip() == ""`: true iff every character is whitespace. -/
def pyStripEmpty (s : String) : Bool := s.toList.all pyIsSpace

/-- `str.expandtabs()` with the default tab size 8: each tab becomes the
spaces needed to reach the next multiple-of-8 column; the column resets
after a line break. -/
def pyExpandTabsAux : List Char → ℕ → List Char
  | [], _ => []
  | c :: rest, col =>
    if c = '\t' then
      List.replicate (8 - col % 8) ' ' ++ pyExpandTabsAux rest (col + (8 - col % 8))
    else if c = '\n' ∨ c = '\r' then c :: pyExpandTabsAux rest 0
    else c :: pyExpandTabsAux rest (col + 1)

/-- Python `s.expandtabs()`. -/
def pyExpandTabs (s : String) : String := String.mk (pyExpandTabsAux s.toList 0)

/-- `replace_whitespace`: every whitespace character becomes a space. -/
def pyReplaceWS (s : String) : String :=
  String.mk (s.toList.map fun c => if pyIsSpace c then ' ' else c)

/-- `TextWrapper._munge_whitespace`: expand tabs, then replace
whitespace. -/
def pyMunge (s : String) : String := pyReplaceWS (pyExpandTabs s)

/-- Split a character list into maximal runs of whitespace /
non-whitespace characters (the chunk split of `textwrap._split` for
munged text); `acc` holds the current run, reversed. -/
def chunksAux : List Char → List Char → List String
  | [], acc => if acc.isEmpty then [] else [String.mk acc.reverse]
  | c :: rest, acc =>
    match acc with
    | [] => chunksAux rest [c]
    | a :: _ =>
      if pyIsSpace c = pyIsSpace a then chunksAux rest (c :: acc)
      else String.mk acc.reverse :: chunksAux rest [c]

/-- The chunks of a string. -/
def chunksOf (s : String) : List String := chunksAux s.toList []

/-- `''.join(chunks)`. -/
def concatChunks : List String → String
  | [] => ""
  | c :: rest => c ++ concatChunks rest

/-- Termination measure for the greedy filler: total characters plus
chunk count. -/
def chunkMeasure (l : List String) : ℕ := (l.map String.length).sum + l.length

/-- Drop one leading whitespace chunk, but only on lines after the
first (`if self.drop_whitespace and chunks[-1].strip() == '' and
lines`). -/
def dropLeadingWS (started : Bool) (chunks : List String) : List String :=
  match started, chunks with
  | true, c :: rest => if pyStripEmpty c = true then rest else c :: rest
  | _, l => l

/-- The greedy inner loop: take chunks while the accumulated length
stays within the width; returns (taken chunks, remaining chunks). -/
def takeLine (w cur_len : ℕ) : List String → List String × List String
  | [] => ([], [])
  | c :: rest =>
    if cur_len + c.length ≤ w then
      ((c :: (takeLine w (cur_len + c.length) rest).1),
       (takeLine w (cur_len + c.length) rest).2)
    else ([], c :: rest)

/-- `_handle_long_word` (with `break_long_words=True`, hyphen handling
omitted): when the next chunk is longer than the width, cut off enough
of it to fill the current line's remaining space and push the remainder
back.  Returns (chunks appended to the line, new remaining chunks). -/
def breakChunk (w cur_len : ℕ) (rest : List String) :
    List String × List String :=
  match rest with
  | [] => ([], [])
  | c :: rest2 =>
    if w < c.length then
      ([String.mk (c.toList.take (if w < 1 then 1 else w - cur_len))],
       String.mk (c.toList.drop (if w < 1 then 1 else w - cur_len)) :: rest2)
    else ([], c :: rest2)

/-- Drop one trailing whitespace chunk from a finished line
(`if self.drop_whitespace and cur_line and cur_line[-1].strip() ==
''`). -/
def dropTrailingWS : List String → List String
  | [] => []
  | [c] => if pyStripEmpty c = true then [] else [c]
  | c :: rest => c :: dropTrailingWS rest

/-- Build one output line from the chunk queue: optional leading-space
drop, greedy fill, long-word break, trailing-space drop; the line is
emitted only if nonempty.  Returns (the line if any, remaining
chunks). -/
def wrapOneLine (w : ℕ) (started : Bool) (chunks : List String) :
    Option String × List String :=
  let chunks1 := dropLeadingWS started chunks
  let t := takeLine w 0 chunks1
  let b := breakChunk w ((t.1.map String.length).sum) t.2
  let cur := dropTrailingWS (t.1 ++ b.1)
  (if cur = [] then none else some (concatChunks cur), b.2)

/-- `TextWrapper._wrap_chunks`: repeatedly build lines until the chunk
queue is exhausted; `started` records whether any line has been emitted
(controlling the leading-whitespace drop). -/
def wrapChunks (w : ℕ) (started : Bool) (chunks : List String) : List String :=
  if h : chunks = [] then []
  else
    (match (wrapOneLine w started chunks).1 with
      | some line => [line]
      | none => []) ++
    wrapChunks w (started || (wrapOneLine w started chunks).1.isSome)
      (wrapOneLine w started chunks).2
termination_by chunkMeasure chunks
decreasing_by
  have hmk : ∀ l : List Char, (String.mk l).length = l.length := fun _ => rfl
  have hmeasApp : ∀ a b : List String,
      chunkMeasure (a ++ b) = chunkMeasure a + chunkMeasure b := by
    intro a b
    simp [chunkMeasure]
    omega
  have htake : ∀ (l : List String) (n : ℕ),
      (takeLine w n l).1 ++ (takeLine w n l).2 = l := by
    intro l
    induction l with
    | nil => intro n; rfl
    | cons c r ihr =>
      intro n
      by_cases hcnd : n + c.length ≤ w
      · simp [takeLine, hcnd, ihr]
      · simp [takeLine, hcnd]
  have hbreakLe : ∀ (n : ℕ) (l : List String),
      chunkMeasure (breakChunk w n l).2 ≤ chunkMeasure l := by
    intro n l
    cases l with
    | nil => simp [breakChunk]
    | cons c r =>
      by_cases hcw : w < c.length
      · simp only [breakChunk, if_pos hcw]
        have hdl : c.toList.length = c.length := rfl
        simp only [chunkMeasure, List.map_cons, List.sum_cons, hmk,
          List.length_cons, List.length_drop, hdl]
        omega
      · simp [breakChunk, hcw]
  have hA2 : ∀ l : List String,
      chunkMeasure (breakChunk w (((takeLine w 0 l).1.map String.length).sum)
        (takeLine w 0 l).2).2 ≤ chunkMeasure l := by
    intro l
    have h1 := htake l 0
    have h2 := hmeasApp (takeLine w 0 l).1 (takeLine w 0 l).2
    rw [h1] at h2
    have h3 := hbreakLe (((takeLine w 0 l).1.map String.length).sum)
      (takeLine w 0 l).2
    omega
  have hposMeas : ∀ l : List String, l ≠ [] → 1 ≤ chunkMeasure l := by
    intro l hl
    cases l with
    | nil => exact absurd rfl hl
    | cons x t =>
      simp only [chunkMeasure, List.map_cons, List.sum_cons, List.length_cons]
      omega
  have hA : ∀ l : List String, l ≠ [] →
      chunkMeasure (breakChunk w (((takeLine w 0 l).1.map String.length).sum)
        (takeLine w 0 l).2).2 < chunkMeasure l := by
    intro l hl
    cases l with
    | nil => exact absurd rfl hl
    | cons c r =>
      by_cases hfit0 : 0 + c.length ≤ w
      · have hne1 : (takeLine w 0 (c :: r)).1 ≠ [] := by
          simp only [takeLine]
          rw [if_pos hfit0]
          simp
        have h1 := htake (c :: r) 0
        have h2 := hmeasApp (takeLine w 0 (c :: r)).1 (takeLine w 0 (c :: r)).2
        rw [h1] at h2
        have h3 := hbreakLe ((List.map String.length (takeLine w 0 (c :: r)).1).sum)
          (takeLine w 0 (c :: r)).2
        have h4 := hposMeas _ hne1
        omega
      · have ht : takeLine w 0 (c :: r) = ([], c :: r) := by
          simp only [takeLine]
          rw [if_neg hfit0]
        rw [ht]
        have hcw : w < c.length := by omega
        have hdl : c.toList.length = c.length := rfl
        simp only [List.map_nil, List.sum_nil, breakChunk]
        rw [if_pos hcw]
        have hk : 1 ≤ (if w < 1 then 1 else w - 0) := by
          by_cases hw1 : w < 1
          · rw [if_pos hw1]
          · rw [if_neg hw1]
            omega
        have hlen1 : (String.mk (c.toList.drop (if w < 1 then 1 else w - 0))).length
            = c.length - (if w < 1 then 1 else w - 0) := by
          rw [hmk, List.length_drop, hdl]
        simp only [chunkMeasure, List.map_cons, List.sum_cons, List.length_cons,
          hlen1]
        omega
  have hwone : (wrapOneLine w started chunks).2
      = (breakChunk w (((takeLine w 0 (dropLeadingWS started chunks)).1.map
          String.length).sum)
          (takeLine w 0 (dropLeadingWS started chunks)).2).2 := rfl
  have hdrop : dropLeadingWS started chunks = chunks ∨
      ∃ c0 r0, chunks = c0 :: r0 ∧ dropLeadingWS started chunks = r0 := by
    cases started with
    | false => exact Or.inl rfl
    | true =>
      cases chunks with
      | nil => exact Or.inl rfl
      | cons c0 r0 =>
        by_cases hs : pyStripEmpty c0 = true
        · exact Or.inr ⟨c0, r0, rfl, by simp [dropLeadingWS, hs]⟩
        · exact Or.inl (by simp [dropLeadingWS, hs])
  simp only [hwone]
  rcases hdrop with heq | ⟨c0, r0, hch, heq⟩
  · rw [heq]
    exact hA chunks h
  · rw [heq, hch]
    have hle := hA2 r0
    have hm : chunkMeasure r0 < chunkMeasure (c0 :: r0) := by
      simp [chunkMeasure]
      omega
    omega

/-- `textwrap.wrap(s, width=w)` with the default options. -/
def pyWrap (w : ℕ) (s : String) : List String :=
  wrapChunks w false (chunksOf (pyMunge s))

/-- The single output line of a paragraph that fits the width: the
munged paragraph with its trailing whitespace run removed. -/
def wrapSingleLine (s : String) : String :=
  concatChunks (dropTrailingWS (chunksOf (pyMunge s)))

/-- The line-break characters of Python `str.splitlines`
(LF, CR, VT, FF, FS, GS, RS, NEL, LINE SEPARATOR, PARAGRAPH SEPARATOR). -/
def pyIsLineBreak (c : Char) : Bool :=
  c = '\n' || c = '\r' || c = Char.ofNat 11 || c = Char.ofNat 12 ||
  c = Char.ofNat 28 || c = Char.ofNat 29 || c = Char.ofNat 30 ||
  c = Char.ofNat 133 || c = Char.ofNat 8232 || c = Char.ofNat 8233

/-- Recursion for `str.splitlines`: CRLF counts as one break, a final
unterminated segment is kept only if nonempty. -/
def splitlinesAux : List Char → List Char → List String
  | [], acc => if acc.isEmpty then [] else [String.mk acc.reverse]
  | '\r' :: '\n' :: rest, acc => String.mk acc.reverse :: splitlinesAux rest []
  | c :: rest, acc =>
    if pyIsLineBreak c then String.mk acc.reverse :: splitlinesAux rest []
    else splitlinesAux rest (c :: acc)

/-- Python `text.splitlines()`. -/
def pySplitlines (s : String) : List String := splitlinesAux s.toList []

/-- A font resource: `getlength` measures a rendered string in pixels
(a Python float, modelled as ℚ) and `bboxTop`/`bboxBot` are entries 1
and 3 of `font.getbbox("Ay")`. -/
structure Font where
  getlength : String → ℚ
  bboxTop : ℤ
  bboxBot : ℤ

/-- The 27-character reference string `"ABCDEFGHIJKLMNOPQRSTUVWXYZ "`
(written out as its character list). -/
def refString : List Char :=
  ['A', 'B', 'C', 'D', 'E', 'F', 'G', 'H', 'I', 'J', 'K', 'L', 'M',
   'N', 'O', 'P', 'Q', 'R', 'S', 'T', 'U', 'V', 'W', 'X', 'Y', 'Z', ' ']

/-- `avg_char_w`: mean of the measured single-character widths of the
reference string (line 43). -/
def avgCharW (font : Font) : ℚ :=
  ((refString.map fun c => font.getlength (String.mk [c])).sum) / 27

/-- `est_chars_per_line = max(1, int(max_width / max(1, avg_char_w)))`
(line 44). -/
def estCharsPerLine (font : Font) (maxWidth : ℤ) : ℕ :=
  max 1 (pyInt ((maxWidth : ℚ) / max 1 (avgCharW font))).toNat

/-- The line list built at lines 45–49: each paragraph is wrapped, and a
blank paragraph additionally contributes one empty line. -/
def linesOf (est : ℕ) (text : String) : List String :=
  (pySplitlines text).flatMap fun para =>
    pyWrap est para ++ (if pyStripEmpty para then [""] else [])

/-- One `draw.text((x, y), line, font=font, fill=fill)` call: `x` is a
Python float (the int box origin plus a float floor-division), `y` an
int. -/
structure DrawOp where
  x : ℚ
  y : ℤ
  line : String
  fill : Color
deriving DecidableEq

/-- `draw_justified_text(draw, box, text, font, fill, line_spacing=6)`:
the list of text-draw calls it issues, in order.  The `i`-th line is
drawn at `y0 + (y1 - y0 - total_h)//2 + i*(lh + line_spacing)`,
horizontally centered by `(max_width - w)//2` (float floor division). -/
def draw_justified_text (box : ℤ × ℤ × ℤ × ℤ) (text : String) (font : Font)
    (fill : Color) (line_spacing : ℤ) : List DrawOp :=
  let x0 := box.1
  let y0 := box.2.1
  let x1 := box.2.2.1
  let y1 := box.2.2.2
  let max_width := x1 - x0
  let est := estCharsPerLine font max_width
  let lines := linesOf est text
  let lh := font.bboxBot - font.bboxTop
  let total_h := (lines.length : ℤ) * lh + ((lines.length : ℤ) - 1) * line_spacing
  let yStart := y0 + Int.fdiv (y1 - y0 - total_h) 2
  lines.enum.map fun pr =>
    { x := (x0 : ℚ) + (⌊((max_width : ℚ) - font.getlength pr.2) / 2⌋ : ℤ)
      y := yStart + (pr.1 : ℤ) * (lh + line_spacing)
      line := pr.2
      fill := fill }

/-! ## Font resolution (`load_font`, lines 5–17) -/

/-- The hard-coded candidate font paths. -/
def fontCandidates : List String :=
  ["/usr/share/fonts/truetype/dejavu/DejaVuSans-Bold.ttf",
   "/usr/share/fonts/truetype/liberation/LiberationSans-Bold.ttf"]

/-- The candidate loop of `load_font`: `tryLoad p size` is the outcome of
`ImageFont.truetype(p, size=size)` (`none` when it raises, in which case
the loop logs and continues); exhaustion falls back to
`ImageFont.load_default(size=size)`. -/
def loadFontAux (tryLoad : String → ℕ → Option Font) (defaultFont : ℕ → Font)
    (size : ℕ) : List String → Font
  | [] => defaultFont size
  | p :: ps =>
    match tryLoad p size with
    | some f => f
    | none => loadFontAux tryLoad defaultFont size ps

/-- `load_font(size)` over the fixed candidate list. -/
def load_font (tryLoad : String → ℕ → Option Font) (defaultFont : ℕ → Font)
    (size : ℕ) : Font :=
  loadFontAux tryLoad defaultFont size fontCandidates

/-! ## The compositor (`make_meme`, lines 60–128) -/

/-- Errors of the compositor, per the spec's taxonomy: `missingAsset`
stands for the exception of `Image.open("sabrina.png")` failing,
`decodeError` for undecodable user bytes. -/
inductive MemeErr where
  | missingAsset
  | decodeError
deriving DecidableEq, Repr

/-- Observable side effects of one `make_meme` call, in program order:
opening the fixed asset (line 90), decoding the user bytes (line 92),
and the final `mkdir` + `bg.save(out_path, "PNG")` (lines 125–126). -/
inductive Event where
  | openAsset
  | decodeUser
  | saveOutput
deriving DecidableEq, Repr

/-- Layout constant `margin = 12`. -/
def margin : ℕ := 12

/-- Layout constant `gutter = 8`. -/
def gutter : ℕ := 8

/-- Layout constant `text_pad = 20`. -/
def textPad : ℕ := 20

/-- `top_h = int(canvas_h * 0.56)` (line 82). -/
def topH (canvas_h : ℕ) : ℕ := (pyInt ((canvas_h : ℚ) * (56 / 100))).toNat

/-- `col_w = (canvas_w - (2*margin) - gutter) // 2` (line 84). -/
def colW (canvas_w : ℕ) : ℕ :=
  (Int.fdiv ((canvas_w : ℤ) - 2 * (margin : ℤ) - (gutter : ℤ)) 2).toNat

/-- `img.getchannel("A").getextrema()[1]`: the maximum alpha value over
all pixels of the image. -/
def alphaMax (img : Image) : ℕ :=
  ((List.range img.width).flatMap fun (x : ℕ) =>
    (List.range img.height).map fun (y : ℕ) =>
      (img.pix (x : ℤ) (y : ℤ)).a).foldr max 0

/-- The sticker effect of lines 107–109: a 2-pixel white border via
`ImageOps.expand`, then `crop((0, 0, col_w, top_h))`. -/
def stickerEffect (img : Image) (col_w top_h : ℕ) : Image :=
  (img.expand 2 Color.white).crop 0 0 (col_w : ℤ) (top_h : ℤ)

/-- The top-right image as pasted (lines 101–109): the letterbox fit of
the color-converted user image, sticker-bordered exactly when the alpha
channel's maximum is below 255.  (The code also tests
`right.mode == "RGBA"`, which is always true after the
`convert("RGBA")` on line 92.) -/
def rightFitted (resample : Image → ℕ → ℕ → Image) (right : Image)
    (col_w top_h : ℕ) : Image :=
  let right_fit := fit_image resample right.convertRGB col_w top_h
  if alphaMax right < 255 then stickerEffect right_fit col_w top_h
  else right_fit

/-- Rasterizing the queued text-draw calls onto a canvas.  `render`
abstracts glyph rasterization (PIL's antialiased text rendering):
`render op p q = some c` means the call `op` paints pixel `(p, q)` with
color `c`; `none` means the pixel is untouched by that call.  Later
calls win; untouched pixels keep the canvas color. -/
def applyOps (render : DrawOp → ℤ → ℤ → Option Color) (ops : List DrawOp)
    (img : Image) : Image :=
  { width := img.width, height := img.height
    pix := fun p q =>
      ((ops.filterMap fun op => render op p q).getLast?).getD (img.pix p q) }

/-- The text-draw calls issued by `make_meme` (lines 114–122): the panel
sub-box inset by `text_pad`, the upper-cased caption, the resolved font,
white fill, default line spacing 6.  (`String.toUpper` models Python
`str.upper()`; the captions concerned are ASCII.) -/
def memeOps (tryLoad : String → ℕ → Option Font) (defaultFont : ℕ → Font)
    (memeText : String) (canvas_w canvas_h font_size : ℕ) : List DrawOp :=
  let top_h := topH canvas_h
  let font := load_font tryLoad defaultFont font_size
  let text_box : ℤ × ℤ × ℤ × ℤ :=
    ((textPad : ℤ), (top_h : ℤ) + (textPad : ℤ),
     (canvas_w : ℤ) - (textPad : ℤ), (canvas_h : ℤ) - (textPad : ℤ))
  draw_justified_text text_box memeText.toUpper font Color.white 6

/-- The composed background of `make_meme` before text (lines 86–112):
gray canvas, left letterboxed image at `(margin, margin)`, right fitted
image (with optional sticker border) at `(margin+col_w+gutter, margin)`,
then the dark panel pasted over the full width from `y = top_h`. -/
def composedBG (resample : Image → ℕ → ℕ → Image) (sabrina right : Image)
    (canvas_w canvas_h : ℕ) : Image :=
  let top_h := topH canvas_h
  let panel_h := canvas_h - top_h
  let col_w := colW canvas_w
  let bg := Image.new canvas_w canvas_h Color.bgGray
  let left_fit := fit_image resample sabrina.convertRGB col_w top_h
  let bg := bg.paste left_fit (margin : ℤ) (margin : ℤ)
  let right_fit := rightFitted resample right col_w top_h
  let bg := bg.paste right_fit ((margin : ℤ) + (colW canvas_w : ℤ) + (gutter : ℤ)) (margin : ℤ)
  let panel := Image.new canvas_w panel_h Color.panelDark
  bg.paste panel 0 (top_h : ℤ)

/-- `make_meme(user_png_bytes, meme_text, out_path, canvas_w, canvas_h,
font_size)`.  `sabrinaRes` / `userRes` are the outcomes of the two
`Image.open` calls (lines 90 and 92, in that order); the returned trace
records the side effects actually performed.  On success the routine
both writes the PNG (`saveOutput`, lines 125–126) and returns the
canvas. -/
def make_meme (resample : Image → ℕ → ℕ → Image)
    (sabrinaRes userRes : Except MemeErr Image)
    (tryLoad : String → ℕ → Option Font) (defaultFont : ℕ → Font)
    (render : DrawOp → ℤ → ℤ → Option Color)
    (memeText : String) (canvas_w canvas_h font_size : ℕ) :
    Except MemeErr Image × List Event :=
  match sabrinaRes with
  | .error e => (.error e, [Event.openAsset])
  | .ok sabrina =>
    match userRes with
    | .error e => (.error e, [Event.openAsset, Event.decodeUser])
    | .ok right =>
      let bg := composedBG resample sabrina right canvas_w canvas_h
      let ops := memeOps tryLoad defaultFont memeText canvas_w canvas_h font_size
      (.ok (applyOps render ops bg),
       [Event.openAsset, Event.decodeUser, Event.saveOutput])

/-! ## Concrete inputs used by witnesses and counterexamples -/

/-- A demonstration font: every measured string reports width 10. -/
def demoFont : Font := ⟨fun _ => (10 : ℚ), 0, 30⟩

/-- A font environment in which no candidate file loads. -/
def noTryLoad : String → ℕ → Option Font := fun _ _ => none

/-- A default-font factory for witnesses. -/
def demoDefault : ℕ → Font := fun _ => demoFont

/-- A glyph model in which text paints no pixel at all. -/
def noRender : DrawOp → ℤ → ℤ → Option Color := fun _ _ _ => none

/-- An opaque 1×1 image. -/
def onePix : Image := ⟨1, 1, fun _ _ => ⟨10, 20, 30, 255⟩⟩

/-- A 3×2 opaque image (wider than tall). -/
def threeTwo : Image := ⟨3, 2, fun _ _ => ⟨50, 60, 70, 255⟩⟩

/-- A fully transparent 1×1 red image. -/
def translucentRed : Image := ⟨1, 1, fun _ _ => ⟨200, 30, 40, 0⟩⟩

/-- A 2×1 image with one transparent pixel and one opaque pixel. -/
def mixedAlpha : Image :=
  ⟨2, 1, fun p _ => if p = 0 then ⟨10, 20, 30, 0⟩ else ⟨10, 20, 30, 255⟩⟩

/-- An all-red 359×516 image (the fitted-image size at default canvas
dimensions), used to exhibit the sticker fringe. -/
def redBox : Image := Image.new 359 516 ⟨200, 30, 40, 255⟩

example : fitNewDims 3 2 10 10 = (10, 6) := by
  norm_num [fitNewDims, pyInt]
  decide

example : fitNewDims 2 1 359 516 = (359, 179) := by
  norm_num [fitNewDims, pyInt]
  decide

example : (fit_image constResample (Image.new 2 1 Color.white) 359 516).pix 0 0
    = Color.filler := by
  have h : fitNewDims 2 1 359 516 = (359, 179) := by
    norm_num [fitNewDims, pyInt]
    decide
  simp [fit_image, h, Image.paste, Image.new, constResample]

/-! ## Helper lemmas -/

/-- `Int.fdiv` of natural-number casts is natural division. -/
theorem fdiv_natCast_two (k : ℕ) : Int.fdiv (k : ℤ) 2 = ((k / 2 : ℕ) : ℤ) := by
  cases k with
  | zero => rfl
  | succ m => rfl

/-- `pyInt` agrees with the floor on nonnegative rationals. -/
theorem pyInt_of_nonneg {q : ℚ} (hq : 0 ≤ q) : pyInt q = ⌊q⌋ := if_pos hq

/-- `fitNewDims` in the wider-than-box case: width pinned to the box,
height derived by the ratio, truncated; it stays within the box and the
ratio is preserved up to the floor. -/
theorem fitNewDims_wide (w h bw bh : ℕ) (hw : 0 < w) (hh : 0 < h)
    (hbh : 0 < bh) (hG : (bw : ℚ) / (bh : ℚ) < (w : ℚ) / (h : ℚ)) :
    ∃ nh : ℕ, fitNewDims w h bw bh = (bw, nh) ∧ nh ≤ bh ∧
      nh * w ≤ bw * h ∧ bw * h < (nh + 1) * w := by
  have hwq : (0 : ℚ) < (w : ℚ) := by exact_mod_cast hw
  have hhq : (0 : ℚ) < (h : ℚ) := by exact_mod_cast hh
  have hbhq : (0 : ℚ) < (bh : ℚ) := by exact_mod_cast hbh
  have hq : (bw : ℚ) / ((w : ℚ) / (h : ℚ)) = ((bw : ℚ) * h) / w :=
    div_div_eq_mul_div _ _ _
  have hq0' : 0 ≤ ((bw : ℚ) * h) / w := by positivity
  have hq0 : 0 ≤ (bw : ℚ) / ((w : ℚ) / (h : ℚ)) := by rw [hq]; exact hq0'
  set z : ℤ := ⌊((bw : ℚ) * h) / w⌋ with hzdef
  have hfl0 : 0 ≤ z := Int.floor_nonneg.mpr hq0'
  have hzq : ((z.toNat : ℕ) : ℚ) = (z : ℚ) := by
    exact_mod_cast Int.toNat_of_nonneg hfl0
  refine ⟨z.toNat, ?_, ?_, ?_, ?_⟩
  · simp only [fitNewDims]
    rw [if_pos hG, pyInt_of_nonneg hq0, hq]
  · have hcross : (bw : ℚ) * h < (w : ℚ) * bh := (div_lt_div_iff₀ hbhq hhq).mp hG
    have hqlt : ((bw : ℚ) * h) / w < (bh : ℚ) := by
      rw [div_lt_iff₀ hwq]
      linarith [mul_comm (bh : ℚ) (w : ℚ)]
    have hzlt : z < (bh : ℤ) := by
      rw [hzdef, Int.floor_lt]
      exact_mod_cast hqlt
    omega
  · have h1 : (z : ℚ) ≤ ((bw : ℚ) * h) / w := Int.floor_le _
    rw [le_div_iff₀ hwq] at h1
    rw [← Nat.cast_le (α := ℚ)]
    push_cast
    rw [hzq]
    exact h1
  · have h2 : ((bw : ℚ) * h) / w < (z : ℚ) + 1 := Int.lt_floor_add_one _
    rw [div_lt_iff₀ hwq] at h2
    rw [← Nat.cast_lt (α := ℚ)]
    push_cast
    rw [hzq]
    exact h2

/-- `fitNewDims` in the taller-than-or-equal case: height pinned to the
box, width derived by the ratio, truncated. -/
theorem fitNewDims_tall (w h bw bh : ℕ) (hw : 0 < w) (hh : 0 < h)
    (hbw : 0 < bw) (hbh : 0 < bh)
    (hG : ¬ ((bw : ℚ) / (bh : ℚ) < (w : ℚ) / (h : ℚ))) :
    ∃ nw : ℕ, fitNewDims w h bw bh = (nw, bh) ∧ nw ≤ bw ∧
      nw * h ≤ bh * w ∧ bh * w < (nw + 1) * h := by
  have hwq : (0 : ℚ) < (w : ℚ) := by exact_mod_cast hw
  have hhq : (0 : ℚ) < (h : ℚ) := by exact_mod_cast hh
  have hbhq : (0 : ℚ) < (bh : ℚ) := by exact_mod_cast hbh
  have hle : (w : ℚ) / (h : ℚ) ≤ (bw : ℚ) / (bh : ℚ) := le_of_not_lt hG
  have hq : (bh : ℚ) * ((w : ℚ) / (h : ℚ)) = ((bh : ℚ) * w) / h :=
    (mul_div_assoc _ _ _).symm
  have hq0' : 0 ≤ ((bh : ℚ) * w) / h := by positivity
  have hq0 : 0 ≤ (bh : ℚ) * ((w : ℚ) / (h : ℚ)) := by rw [hq]; exact hq0'
  set z : ℤ := ⌊((bh : ℚ) * w) / h⌋ with hzdef
  have hfl0 : 0 ≤ z := Int.floor_nonneg.mpr hq0'
  have hzq : ((z.toNat : ℕ) : ℚ) = (z : ℚ) := by
    exact_mod_cast Int.toNat_of_nonneg hfl0
  refine ⟨z.toNat, ?_, ?_, ?_, ?_⟩
  · simp only [fitNewDims]
    rw [if_neg hG, pyInt_of_nonneg hq0, hq]
  · have hcross : (w : ℚ) * bh ≤ (bw : ℚ) * h := (div_le_div_iff₀ hhq hbhq).mp hle
    have hqle : ((bh : ℚ) * w) / h ≤ (bw : ℚ) := by
      rw [div_le_iff₀ hhq]
      linarith [mul_comm (bh : ℚ) (w : ℚ)]
    have hzle : z ≤ (bw : ℤ) := by
      rw [hzdef]
      have := Int.floor_le_floor hqle
      rwa [Int.floor_natCast] at this
    omega
  · have h1 : (z : ℚ) ≤ ((bh : ℚ) * w) / h := Int.floor_le _
    rw [le_div_iff₀ hhq] at h1
    rw [← Nat.cast_le (α := ℚ)]
    push_cast
    rw [hzq]
    exact h1
  · have h2 : ((bh : ℚ) * w) / h < (z : ℚ) + 1 := Int.lt_floor_add_one _
    rw [div_lt_iff₀ hhq] at h2
    rw [← Nat.cast_lt (α := ℚ)]
    push_cast
    rw [hzq]
    exact h2

/-- The size contract of `constResample`. -/
theorem constResample_size : ∀ i a b,
    (constResample i a b).width = a ∧ (constResample i a b).height = b :=
  fun _ _ _ => ⟨rfl, rfl⟩

/-- Pixel-level description of `fit_image` once the resize target
`(nw, nh)` fits inside the box: the centered rectangle shows the
resized image, everything else the filler. -/
theorem fit_image_pix (resample : Image → ℕ → ℕ → Image) (img : Image)
    (bw bh nw nh : ℕ)
    (hres : ∀ i a b, (resample i a b).width = a ∧ (resample i a b).height = b)
    (hnd : fitNewDims img.width img.height bw bh = (nw, nh))
    (h1 : nw ≤ bw) (h2 : nh ≤ bh) :
    ∀ p q : ℤ,
      (fit_image resample img bw bh).pix p q =
        if (((bw - nw) / 2 : ℕ) : ℤ) ≤ p ∧ p < (((bw - nw) / 2 : ℕ) : ℤ) + (nw : ℤ) ∧
            (((bh - nh) / 2 : ℕ) : ℤ) ≤ q ∧ q < (((bh - nh) / 2 : ℕ) : ℤ) + (nh : ℤ) then
          (resample img nw nh).pix (p - (((bw - nw) / 2 : ℕ) : ℤ))
            (q - (((bh - nh) / 2 : ℕ) : ℤ))
        else Color.filler := by
  intro p q
  have hx : Int.fdiv ((bw : ℤ) - (nw : ℤ)) 2 = (((bw - nw) / 2 : ℕ) : ℤ) := by
    rw [show ((bw : ℤ) - (nw : ℤ)) = (((bw - nw : ℕ)) : ℤ) by omega, fdiv_natCast_two]
  have hy : Int.fdiv ((bh : ℤ) - (nh : ℤ)) 2 = (((bh - nh) / 2 : ℕ) : ℤ) := by
    rw [show ((bh : ℤ) - (nh : ℤ)) = (((bh - nh : ℕ)) : ℤ) by omega, fdiv_natCast_two]
  simp only [fit_image, hnd, Image.paste, Image.new]
  rw [hx, hy, (hres img nw nh).1, (hres img nw nh).2]

/-- Claim C1: for every source image with positive dimensions and every
positive box `(box_w, box_h)`, `fit_image` returns an image of exactly
`(box_w, box_h)` pixels; the resize target `(nw, nh)` fits in the box
and preserves the source aspect ratio up to the floor truncation the
code performs (one dimension is pinned to the box, the other is the
exact ratio scaling floored); the resized image is composited on a
`(240, 240, 240)` filler canvas, centered via floor integer-division
offsets, so the padding on opposite sides differs by at most one
pixel. -/
theorem fit_image_letterbox (resample : Image → ℕ → ℕ → Image) (img : Image)
    (bw bh nw nh : ℕ)
    (hw : 0 < img.width) (hh : 0 < img.height) (hbw : 0 < bw) (hbh : 0 < bh)
    (hres : ∀ i a b, (resample i a b).width = a ∧ (resample i a b).height = b)
    (hnd : fitNewDims img.width img.height bw bh = (nw, nh)) :
    (fit_image resample img bw bh).width = bw ∧
    (fit_image resample img bw bh).height = bh ∧
    nw ≤ bw ∧ nh ≤ bh ∧
    ((nh * img.width ≤ nw * img.height ∧ nw * img.height < (nh + 1) * img.width) ∨
     (nw * img.height ≤ nh * img.width ∧ nh * img.width < (nw + 1) * img.height)) ∧
    (∀ p q : ℤ,
      (fit_image resample img bw bh).pix p q =
        if (((bw - nw) / 2 : ℕ) : ℤ) ≤ p ∧ p < (((bw - nw) / 2 : ℕ) : ℤ) + (nw : ℤ) ∧
            (((bh - nh) / 2 : ℕ) : ℤ) ≤ q ∧ q < (((bh - nh) / 2 : ℕ) : ℤ) + (nh : ℤ) then
          (resample img nw nh).pix (p - (((bw - nw) / 2 : ℕ) : ℤ))
            (q - (((bh - nh) / 2 : ℕ) : ℤ))
        else Color.filler) ∧
    ((bw - nw) / 2 ≤ (bw - nw) - (bw - nw) / 2 ∧
      (bw - nw) - (bw - nw) / 2 ≤ (bw - nw) / 2 + 1) ∧
    ((bh - nh) / 2 ≤ (bh - nh) - (bh - nh) / 2 ∧
      (bh - nh) - (bh - nh) / 2 ≤ (bh - nh) / 2 + 1) := by
  have hdims : nw ≤ bw ∧ nh ≤ bh ∧
      ((nh * img.width ≤ nw * img.height ∧ nw * img.height < (nh + 1) * img.width) ∨
       (nw * img.height ≤ nh * img.width ∧ nh * img.width < (nw + 1) * img.height)) := by
    by_cases hG : (bw : ℚ) / (bh : ℚ) < (img.width : ℚ) / (img.height : ℚ)
    · obtain ⟨nh', hnd', hle', hA, hB⟩ :=
        fitNewDims_wide img.width img.height bw bh hw hh hbh hG
      rw [hnd] at hnd'
      injection hnd' with e1 e2
      subst e1
      subst e2
      exact ⟨le_refl _, hle', Or.inl ⟨hA, hB⟩⟩
    · obtain ⟨nw', hnd', hle', hA, hB⟩ :=
        fitNewDims_tall img.width img.height bw bh hw hh hbw hbh hG
      rw [hnd] at hnd'
      injection hnd' with e1 e2
      subst e1
      subst e2
      exact ⟨hle', le_refl _, Or.inr ⟨hA, hB⟩⟩
  refine ⟨rfl, rfl, hdims.1, hdims.2.1, hdims.2.2, ?_, ?_, ?_⟩
  · exact fit_image_pix resample img bw bh nw nh hres hnd hdims.1 hdims.2.1
  · omega
  · omega

/-- Witness for C1 at a concrete input: the 3×2 image `threeTwo` fitted
into a 10×10 box, with resize target `(10, 6)`. -/
theorem fit_image_letterbox_witness :
    (fit_image constResample threeTwo 10 10).width = 10 ∧
    (fit_image constResample threeTwo 10 10).height = 10 ∧
    10 ≤ 10 ∧ 6 ≤ 10 ∧
    ((6 * threeTwo.width ≤ 10 * threeTwo.height ∧
        10 * threeTwo.height < (6 + 1) * threeTwo.width) ∨
     (10 * threeTwo.height ≤ 6 * threeTwo.width ∧
        6 * threeTwo.width < (10 + 1) * threeTwo.height)) ∧
    (∀ p q : ℤ,
      (fit_image constResample threeTwo 10 10).pix p q =
        if (((10 - 10) / 2 : ℕ) : ℤ) ≤ p ∧ p < (((10 - 10) / 2 : ℕ) : ℤ) + (10 : ℤ) ∧
            (((10 - 6) / 2 : ℕ) : ℤ) ≤ q ∧ q < (((10 - 6) / 2 : ℕ) : ℤ) + (6 : ℤ) then
          (constResample threeTwo 10 6).pix (p - (((10 - 10) / 2 : ℕ) : ℤ))
            (q - (((10 - 6) / 2 : ℕ) : ℤ))
        else Color.filler) ∧
    ((10 - 10) / 2 ≤ (10 - 10) - (10 - 10) / 2 ∧
      (10 - 10) - (10 - 10) / 2 ≤ (10 - 10) / 2 + 1) ∧
    ((10 - 6) / 2 ≤ (10 - 6) - (10 - 6) / 2 ∧
      (10 - 6) - (10 - 6) / 2 ≤ (10 - 6) / 2 + 1) :=
  fit_image_letterbox constResample threeTwo 10 10 10 6
    (by decide) (by decide) (by decide) (by decide) constResample_size
    (by norm_num [fitNewDims, pyInt, threeTwo]; decide)

/-- Unrolling `loadFontAux` to the first-success-or-default form. -/
theorem loadFontAux_eq (tryLoad : String → ℕ → Option Font)
    (defaultFont : ℕ → Font) (size : ℕ) :
    ∀ l : List String, loadFontAux tryLoad defaultFont size l
      = ((l.findSome? fun p => tryLoad p size).getD (defaultFont size)) := by
  intro l
  induction l with
  | nil => rfl
  | cons p ps ih =>
    cases htl : tryLoad p size with
    | none => simp [loadFontAux, List.findSome?_cons, htl, ih]
    | some f => simp [loadFontAux, List.findSome?_cons, htl]

/-- Claim C8: `load_font(size)` never raises for any size — it is a
total function whose value is the first candidate font file that loads
successfully at the requested size (`List.findSome?` scans the fixed
candidate list in order), and the platform-default font at that size
when every candidate fails. -/
theorem load_font_total (tryLoad : String → ℕ → Option Font)
    (defaultFont : ℕ → Font) (size : ℕ) :
    load_font tryLoad defaultFont size
      = ((fontCandidates.findSome? fun p => tryLoad p size).getD
          (defaultFont size)) :=
  loadFontAux_eq tryLoad defaultFont size fontCandidates

/-- Claim C6: when the fixed left-side asset cannot be loaded,
`make_meme` propagates that failure having performed only the
asset-open effect — in particular the user image is never decoded. -/
theorem make_meme_missing_asset (resample : Image → ℕ → ℕ → Image)
    (e : MemeErr) (userRes : Except MemeErr Image)
    (tryLoad : String → ℕ → Option Font) (defaultFont : ℕ → Font)
    (render : DrawOp → ℤ → ℤ → Option Color)
    (memeText : String) (canvas_w canvas_h font_size : ℕ) :
    make_meme resample (.error e) userRes tryLoad defaultFont render
        memeText canvas_w canvas_h font_size = (.error e, [Event.openAsset]) ∧
    Event.decodeUser ∉ (make_meme resample (.error e) userRes tryLoad
        defaultFont render memeText canvas_w canvas_h font_size).2 := by
  refine ⟨rfl, ?_⟩
  simp [make_meme]

/-- Claim C7: undecodable user bytes make `make_meme` fail with the
decode error after only the open/decode effects — no save is performed
— and in general a save event implies the whole run succeeded (the
save is the last step, after all decoding, layout and drawing). -/
theorem make_meme_decode_error (resample : Image → ℕ → ℕ → Image)
    (sab : Image) (e : MemeErr)
    (tryLoad : String → ℕ → Option Font) (defaultFont : ℕ → Font)
    (render : DrawOp → ℤ → ℤ → Option Color)
    (memeText : String) (canvas_w canvas_h font_size : ℕ) :
    make_meme resample (.ok sab) (.error e) tryLoad defaultFont render
        memeText canvas_w canvas_h font_size
      = (.error e, [Event.openAsset, Event.decodeUser]) ∧
    Event.saveOutput ∉ (make_meme resample (.ok sab) (.error e) tryLoad
        defaultFont render memeText canvas_w canvas_h font_size).2 ∧
    (∀ sabrinaRes userRes : Except MemeErr Image,
      Event.saveOutput ∈ (make_meme resample sabrinaRes userRes tryLoad
          defaultFont render memeText canvas_w canvas_h font_size).2 →
      ∃ out, (make_meme resample sabrinaRes userRes tryLoad defaultFont
          render memeText canvas_w canvas_h font_size).1 = .ok out) := by
  refine ⟨rfl, by simp [make_meme], ?_⟩
  intro s u hmem
  cases s with
  | error e' => simp [make_meme] at hmem
  | ok s' =>
    cases u with
    | error e' => simp [make_meme] at hmem
    | ok u' => exact ⟨_, rfl⟩

/-- Claim C9 (amended): on success `make_meme` both returns the composed
raster and performs the save effect itself — the routine encodes and
writes the PNG to `out_path` (lines 125–126), in addition to the caller
serializing the returned canvas. -/
theorem make_meme_saves_on_success (resample : Image → ℕ → ℕ → Image)
    (sab usr : Image)
    (tryLoad : String → ℕ → Option Font) (defaultFont : ℕ → Font)
    (render : DrawOp → ℤ → ℤ → Option Color)
    (memeText : String) (canvas_w canvas_h font_size : ℕ) :
    make_meme resample (.ok sab) (.ok usr) tryLoad defaultFont render
        memeText canvas_w canvas_h font_size
      = (.ok (applyOps render
            (memeOps tryLoad defaultFont memeText canvas_w canvas_h font_size)
            (composedBG resample sab usr canvas_w canvas_h)),
         [Event.openAsset, Event.decodeUser, Event.saveOutput]) ∧
    Event.saveOutput ∈ (make_meme resample (.ok sab) (.ok usr) tryLoad
        defaultFont render memeText canvas_w canvas_h font_size).2 :=
  ⟨rfl, by simp [make_meme]⟩

/-- Counterexample to claim C9 as stated: a successful concrete run of
`make_meme` does perform the save side effect (`bg.save(out_path,
"PNG")`), so the file system is not left unchanged by the routine. -/
theorem make_meme_save_counterexample :
    Event.saveOutput ∈ (make_meme constResample (.ok onePix) (.ok onePix)
      noTryLoad demoDefault noRender "x" 750 923 36).2 := by
  simp [make_meme]

/-- Claim C10: for the empty caption, the renderer's line list is empty,
no draw call is issued, and applying the (empty) draw list leaves any
canvas unchanged — the negative `total_h` intermediate is never used to
draw anything, for every box, font, fill and spacing. -/
theorem draw_text_empty_caption (box : ℤ × ℤ × ℤ × ℤ) (font : Font)
    (fill : Color) (line_spacing : ℤ) :
    linesOf (estCharsPerLine font (box.2.2.1 - box.1)) "" = [] ∧
    draw_justified_text box "" font fill line_spacing = [] ∧
    (∀ (render : DrawOp → ℤ → ℤ → Option Color) (img : Image),
      applyOps render (draw_justified_text box "" font fill line_spacing) img
        = img) :=
  ⟨rfl, rfl, fun _ _ => rfl⟩

/-- `foldr max 0` of a list is below a positive bound iff every element
is. -/
theorem foldr_max_lt_iff (l : List ℕ) (n : ℕ) (hn : 0 < n) :
    l.foldr max 0 < n ↔ ∀ a ∈ l, a < n := by
  induction l with
  | nil => simpa using hn
  | cons a l ih => simp [List.foldr, max_lt_iff, ih]

/-- The alpha maximum is below 255 iff every in-bounds pixel's alpha
is. -/
theorem alphaMax_lt_iff (img : Image) :
    alphaMax img < 255 ↔
      ∀ x, x < img.width → ∀ y, y < img.height →
        (img.pix (x : ℤ) (y : ℤ)).a < 255 := by
  rw [alphaMax, foldr_max_lt_iff _ _ (by norm_num)]
  constructor
  · intro hal x hx y hy
    refine hal _ ?_
    refine List.mem_flatMap.mpr ⟨x, List.mem_range.mpr hx, ?_⟩
    exact List.mem_map.mpr ⟨y, List.mem_range.mpr hy, rfl⟩
  · intro hal a ha
    obtain ⟨x, hxmem, hamem⟩ := List.mem_flatMap.mp ha
    obtain ⟨y, hymem, rfl⟩ := List.mem_map.mp hamem
    exact hal x (List.mem_range.mp hxmem) y (List.mem_range.mp hymem)

/-- Claim C3 (amended): the sticker effect is applied to the fitted
right image exactly when the alpha channel's maximum is below 255 —
that is, when every pixel is at least partially transparent; if any
pixel is fully opaque, the fitted image is pasted unmodified. -/
theorem sticker_condition_spec (resample : Image → ℕ → ℕ → Image)
    (img : Image) (cw th : ℕ) :
    (alphaMax img < 255 ↔
      ∀ x, x < img.width → ∀ y, y < img.height →
        (img.pix (x : ℤ) (y : ℤ)).a < 255) ∧
    rightFitted resample img cw th =
      (if alphaMax img < 255 then
        stickerEffect (fit_image resample img.convertRGB cw th) cw th
       else fit_image resample img.convertRGB cw th) :=
  ⟨alphaMax_lt_iff img, rfl⟩

/-- Counterexample to claim C3 as stated: `mixedAlpha` has a pixel with
alpha below 255, yet the sticker effect is not applied — the fitted
image is pasted unmodified (its top-left pixel is the letterbox filler,
where the sticker effect would have painted white). -/
theorem sticker_condition_counterexample :
    (mixedAlpha.pix 0 0).a < 255 ∧
    rightFitted constResample mixedAlpha 359 516
      = fit_image constResample mixedAlpha.convertRGB 359 516 ∧
    (rightFitted constResample mixedAlpha 359 516).pix 0 0 = Color.filler ∧
    (stickerEffect (fit_image constResample mixedAlpha.convertRGB 359 516)
        359 516).pix 0 0 = Color.white ∧
    Color.filler ≠ Color.white := by
  have halpha : ¬ (alphaMax mixedAlpha < 255) := by decide
  have heq : rightFitted constResample mixedAlpha 359 516
      = fit_image constResample mixedAlpha.convertRGB 359 516 := by
    simp [rightFitted, halpha]
  have hnd : fitNewDims (mixedAlpha.convertRGB).width
      (mixedAlpha.convertRGB).height 359 516 = (359, 179) := by
    norm_num [fitNewDims, pyInt, mixedAlpha, Image.convertRGB]
    decide
  have hpix := fit_image_pix constResample mixedAlpha.convertRGB 359 516 359 179
    constResample_size hnd (by decide) (by decide)
  refine ⟨by decide, heq, ?_, by decide, by decide⟩
  rw [heq, hpix 0 0]
  decide

/-- Claim C2 (amended): applying the sticker step (2-pixel white border
then crop) to a fitted image of exactly `(col_w, top_h)` yields an
image of exactly `(col_w, top_h)` in which the thin white fringe lies
on exactly the left and top edges (the strips `p < 2` or `q < 2`), the
remaining pixels being the fitted image's pixels shifted by `(2, 2)` —
so the right and bottom edges show shifted content, not fringe. -/
theorem sticker_crop_spec (img : Image) (col_w top_h : ℕ)
    (hw : img.width = col_w) (hh : img.height = top_h) :
    (stickerEffect img col_w top_h).width = col_w ∧
    (stickerEffect img col_w top_h).height = top_h ∧
    (∀ p q : ℤ, 0 ≤ p → p < (col_w : ℤ) → 0 ≤ q → q < (top_h : ℤ) →
      (stickerEffect img col_w top_h).pix p q =
        if p < 2 ∨ q < 2 then Color.white else img.pix (p - 2) (q - 2)) := by
  subst hw
  subst hh
  refine ⟨?_, ?_, ?_⟩
  · simp [stickerEffect, Image.crop, Image.expand]
  · simp [stickerEffect, Image.crop, Image.expand]
  · intro p q hp0 hpw hq0 hqh
    simp only [stickerEffect, Image.crop, Image.expand, add_zero]
    by_cases hc : p < 2 ∨ q < 2
    · rw [if_neg (by omega), if_pos hc]
    · rw [if_pos (by omega), if_neg hc]
      norm_num

/-- Witness for C2's amended theorem at the all-red fitted image. -/
theorem sticker_crop_spec_witness :
    (stickerEffect redBox 359 516).width = 359 ∧
    (stickerEffect redBox 359 516).height = 516 ∧
    (∀ p q : ℤ, 0 ≤ p → p < (359 : ℤ) → 0 ≤ q → q < (516 : ℤ) →
      (stickerEffect redBox 359 516).pix p q =
        if p < 2 ∨ q < 2 then Color.white else redBox.pix (p - 2) (q - 2)) :=
  sticker_crop_spec redBox 359 516 rfl rfl

/-- Counterexample to claim C2 as stated: after border-then-crop of an
all-red fitted image, the top-left corner pixel is white fringe while a
right-edge pixel shows the red content — the fringe is on the left/top
edges, not the right/bottom ones. -/
theorem sticker_fringe_counterexample :
    (stickerEffect redBox 359 516).pix 0 0 = Color.white ∧
    (stickerEffect redBox 359 516).pix 358 300 = ⟨200, 30, 40, 255⟩ ∧
    (⟨200, 30, 40, 255⟩ : Color) ≠ Color.white :=
  ⟨by decide, by decide, by decide⟩

/-- The lines of the issued draw calls are exactly the computed line
list. -/
theorem draw_ops_map_line (box : ℤ × ℤ × ℤ × ℤ) (text : String) (font : Font)
    (fill : Color) (ls : ℤ) :
    (draw_justified_text box text font fill ls).map DrawOp.line
      = linesOf (estCharsPerLine font (box.2.2.1 - box.1)) text := by
  simp only [draw_justified_text, List.map_map, Function.comp]
  exact List.enum_map_snd _

/-- `topH` at the default canvas height. -/
theorem topH_923 : topH 923 = 516 := by
  norm_num [topH, pyInt]
  decide

/-- `colW` at the default canvas width. -/
theorem colW_750 : colW 750 = 359 := by decide

/-- Every pixel of the band from `y = 516` down is the dark panel color
in the composed background (the panel is pasted last, over both
images). -/
theorem composedBG_band (resample : Image → ℕ → ℕ → Image) (sab usr : Image) :
    ∀ p q : ℤ, 0 ≤ p → p < 750 → 516 ≤ q → q < 923 →
      (composedBG resample sab usr 750 923).pix p q = Color.panelDark := by
  intro p q hp0 hp hq0 hq
  simp only [composedBG, topH_923, Image.paste, Image.new]
  rw [if_pos (by omega)]

/-- Claim C4: for every valid (decodable, positive-size) user image and
any caption, `make_meme` at the default 750×923 canvas succeeds with a
raster of exactly 750×923 pixels; every pixel of the full-width band
from `y = ⌊923·0.56⌋ = 516` to the bottom that no text-draw call paints
is the panel color `(29, 29, 31)`; all text-draw calls use white fill;
and the lines drawn are exactly the layout of the caption converted to
upper case. -/
theorem make_meme_band_spec (resample : Image → ℕ → ℕ → Image)
    (sab usr : Image)
    (tryLoad : String → ℕ → Option Font) (defaultFont : ℕ → Font)
    (render : DrawOp → ℤ → ℤ → Option Color) (memeText : String)
    (hsw : 0 < sab.width) (hsh : 0 < sab.height)
    (huw : 0 < usr.width) (huh : 0 < usr.height)
    (hres : ∀ i a b, (resample i a b).width = a ∧ (resample i a b).height = b) :
    ∃ out : Image,
      make_meme resample (.ok sab) (.ok usr) tryLoad defaultFont render
          memeText 750 923 36
        = (.ok out, [Event.openAsset, Event.decodeUser, Event.saveOutput]) ∧
      out.width = 750 ∧ out.height = 923 ∧
      (∀ p q : ℤ, 0 ≤ p → p < 750 → 516 ≤ q → q < 923 →
        ((memeOps tryLoad defaultFont memeText 750 923 36).filterMap
            (fun op => render op p q)) = [] →
        out.pix p q = Color.panelDark) ∧
      (∀ op ∈ memeOps tryLoad defaultFont memeText 750 923 36,
        op.fill = Color.white) ∧
      (memeOps tryLoad defaultFont memeText 750 923 36).map DrawOp.line
        = linesOf (estCharsPerLine (load_font tryLoad defaultFont 36)
            (((750 : ℕ) : ℤ) - (textPad : ℤ) - (textPad : ℤ)))
            memeText.toUpper := by
  refine ⟨applyOps render (memeOps tryLoad defaultFont memeText 750 923 36)
      (composedBG resample sab usr 750 923), rfl, rfl, rfl, ?_, ?_, ?_⟩
  · intro p q hp0 hp hq0 hq hnone
    simp only [applyOps]
    rw [hnone]
    simp only [List.getLast?_nil, Option.getD_none]
    exact composedBG_band resample sab usr p q hp0 hp hq0 hq
  · intro op hop
    simp only [memeOps, draw_justified_text, List.mem_map] at hop
    obtain ⟨pr, _, rfl⟩ := hop
    rfl
  · exact draw_ops_map_line _ _ _ _ _

/-- Witness for C4 at concrete inputs: 1×1 opaque images, a font
environment with no loadable candidate, and a glyph model painting
nothing. -/
theorem make_meme_band_spec_witness :
    ∃ out : Image,
      make_meme constResample (.ok onePix) (.ok onePix) noTryLoad demoDefault
          noRender "press e" 750 923 36
        = (.ok out, [Event.openAsset, Event.decodeUser, Event.saveOutput]) ∧
      out.width = 750 ∧ out.height = 923 ∧
      (∀ p q : ℤ, 0 ≤ p → p < 750 → 516 ≤ q → q < 923 →
        ((memeOps noTryLoad demoDefault "press e" 750 923 36).filterMap
            (fun op => noRender op p q)) = [] →
        out.pix p q = Color.panelDark) ∧
      (∀ op ∈ memeOps noTryLoad demoDefault "press e" 750 923 36,
        op.fill = Color.white) ∧
      (memeOps noTryLoad demoDefault "press e" 750 923 36).map DrawOp.line
        = linesOf (estCharsPerLine (load_font noTryLoad demoDefault 36)
            (((750 : ℕ) : ℤ) - (textPad : ℤ) - (textPad : ℤ)))
            (String.toUpper "press e") :=
  make_meme_band_spec constResample onePix onePix noTryLoad demoDefault
    noRender "press e" (by decide) (by decide) (by decide) (by decide)
    constResample_size

/-- A `flatMap` whose every fiber is a singleton is a `map`. -/
theorem flatMap_eq_map_of_singleton {α β : Type} (f : α → List β) (g : α → β) :
    ∀ l : List α, (∀ x ∈ l, f x = [g x]) → l.flatMap f = l.map g := by
  intro l
  induction l with
  | nil => intro _; rfl
  | cons a t ih =>
    intro hall
    rw [List.flatMap_cons, hall a (by simp), List.map_cons,
      ih fun x hx => hall x (by simp [hx])]
    rfl

/-- The wrap-width estimate of the demonstration font over the default
text box width. -/
theorem estCharsPerLine_demoFont : estCharsPerLine demoFont ((730 : ℤ) - 20) = 71 := by
  have havg : avgCharW demoFont = 10 := by
    rw [avgCharW]
    norm_num [refString, demoFont]
  rw [estCharsPerLine, havg]
  norm_num [pyInt]
  decide


/-- The length of a string built from a character list. -/
theorem string_mk_length (l : List Char) : (String.mk l).length = l.length := rfl

/-- When the whole chunk queue fits within the width, the greedy inner
loop takes everything. -/
theorem takeLine_all (w : ℕ) : ∀ (chunks : List String) (n : ℕ),
    n + (chunks.map String.length).sum ≤ w → takeLine w n chunks = (chunks, []) := by
  intro chunks
  induction chunks with
  | nil => intro n _; rfl
  | cons c rest ih =>
    intro n hle
    simp only [List.map_cons, List.sum_cons] at hle
    have h1 : n + c.length ≤ w := by omega
    simp only [takeLine]
    rw [if_pos h1, ih (n + c.length) (by omega)]

/-- The chunk split preserves total character count. -/
theorem chunksAux_sum : ∀ (l acc : List Char),
    ((chunksAux l acc).map String.length).sum = l.length + acc.length := by
  intro l
  induction l with
  | nil =>
    intro acc
    cases acc with
    | nil => rfl
    | cons a as =>
      simp [chunksAux, string_mk_length]
  | cons c rest ih =>
    intro acc
    cases acc with
    | nil =>
      simp only [chunksAux]
      rw [ih [c]]
      simp
    | cons a as =>
      by_cases hsp : pyIsSpace c = pyIsSpace a
      · simp only [chunksAux, if_pos hsp]
        rw [ih (c :: a :: as)]
        simp
        omega
      · simp only [chunksAux, if_neg hsp, List.map_cons, List.sum_cons,
          string_mk_length, List.length_reverse]
        rw [ih [c]]
        simp
        omega

/-- The chunks of a string carry exactly its characters. -/
theorem chunksOf_sum (s : String) :
    ((chunksOf s).map String.length).sum = s.length := by
  rw [chunksOf, chunksAux_sum]
  simp

/-- An all-whitespace character list splits into at most one (all
whitespace) chunk. -/
theorem chunksAux_all_space : ∀ (l acc : List Char),
    (∀ c ∈ l, pyIsSpace c = true) → (∀ c ∈ acc, pyIsSpace c = true) →
    chunksAux l acc = [] ∨
      ∃ s, chunksAux l acc = [s] ∧ pyStripEmpty s = true := by
  intro l
  induction l with
  | nil =>
    intro acc _ hacc
    cases acc with
    | nil => exact Or.inl rfl
    | cons a as =>
      refine Or.inr ⟨String.mk ((a :: as).reverse), by simp [chunksAux], ?_⟩
      have htl : (String.mk ((a :: as).reverse)).toList = (a :: as).reverse := rfl
      rw [pyStripEmpty, htl, List.all_eq_true]
      intro c hc
      exact hacc c (List.mem_reverse.mp hc)
  | cons c rest ih =>
    intro acc hl hacc
    have hc : pyIsSpace c = true := hl c (by simp)
    cases acc with
    | nil =>
      simp only [chunksAux]
      exact ih [c] (fun d hd => hl d (by simp [hd]))
        (by intro d hd; simp at hd; rw [hd]; exact hc)
    | cons a as =>
      have ha : pyIsSpace a = true := hacc a (by simp)
      have hsp : pyIsSpace c = pyIsSpace a := by rw [hc, ha]
      simp only [chunksAux, if_pos hsp]
      refine ih (c :: a :: as) (fun d hd => hl d (by simp [hd])) ?_
      intro d hd
      rcases List.mem_cons.mp hd with rfl | hd2
      · exact hc
      · exact hacc d hd2

/-- A character list holding a non-whitespace character splits into a
chunk list containing a non-whitespace chunk. -/
theorem chunksAux_has_word : ∀ (l acc : List Char),
    ((∃ c ∈ l, pyIsSpace c = false) ∨ (∃ c ∈ acc, pyIsSpace c = false)) →
    ∃ s ∈ chunksAux l acc, pyStripEmpty s = false := by
  intro l
  induction l with
  | nil =>
    intro acc h
    rcases h with ⟨c, hc, _⟩ | ⟨c, hc, hcf⟩
    · simp at hc
    · cases acc with
      | nil => simp at hc
      | cons a as =>
        refine ⟨String.mk ((a :: as).reverse), by simp [chunksAux], ?_⟩
        have htl : (String.mk ((a :: as).reverse)).toList = (a :: as).reverse := rfl
        rw [pyStripEmpty, htl, List.all_eq_false]
        exact ⟨c, List.mem_reverse.mpr hc, by simp [hcf]⟩
  | cons c rest ih =>
    intro acc h
    by_cases hc : pyIsSpace c = true
    · cases acc with
      | nil =>
        simp only [chunksAux]
        refine ih [c] (Or.inl ?_)
        rcases h with ⟨d, hd, hdf⟩ | ⟨d, hd, _⟩
        · rcases List.mem_cons.mp hd with rfl | hd2
          · rw [hc] at hdf
            exact absurd hdf (by simp)
          · exact ⟨d, hd2, hdf⟩
        · simp at hd
      | cons a as =>
        by_cases hsp : pyIsSpace c = pyIsSpace a
        · simp only [chunksAux, if_pos hsp]
          refine ih (c :: a :: as) ?_
          rcases h with ⟨d, hd, hdf⟩ | ⟨d, hd, hdf⟩
          · rcases List.mem_cons.mp hd with rfl | hd2
            · rw [hc] at hdf
              exact absurd hdf (by simp)
            · exact Or.inl ⟨d, hd2, hdf⟩
          · exact Or.inr ⟨d, List.mem_cons_of_mem c hd, hdf⟩
        · have ha : pyIsSpace a = false := by
            cases haa : pyIsSpace a
            · rfl
            · rw [hc, haa] at hsp
              exact absurd rfl hsp
          simp only [chunksAux, if_neg hsp]
          refine ⟨String.mk ((a :: as).reverse), by simp, ?_⟩
          have htl : (String.mk ((a :: as).reverse)).toList = (a :: as).reverse := rfl
          rw [pyStripEmpty, htl, List.all_eq_false]
          exact ⟨a, by simp, by simp [ha]⟩
    · have hcf : pyIsSpace c = false := by
        cases hcc : pyIsSpace c
        · rfl
        · exact absurd hcc hc
      cases acc with
      | nil =>
        simp only [chunksAux]
        exact ih [c] (Or.inr ⟨c, by simp, hcf⟩)
      | cons a as =>
        by_cases hsp : pyIsSpace c = pyIsSpace a
        · simp only [chunksAux, if_pos hsp]
          exact ih (c :: a :: as) (Or.inr ⟨c, by simp, hcf⟩)
        · simp only [chunksAux, if_neg hsp]
          obtain ⟨s, hs, hsf⟩ := ih [c] (Or.inr ⟨c, by simp, hcf⟩)
          exact ⟨s, by simp [hs], hsf⟩

/-- Tab expansion of an all-whitespace list is all whitespace. -/
theorem pyExpandTabsAux_all_space : ∀ (l : List Char) (col : ℕ),
    (∀ c ∈ l, pyIsSpace c = true) →
    ∀ c ∈ pyExpandTabsAux l col, pyIsSpace c = true := by
  intro l
  induction l with
  | nil =>
    intro col _ c hc
    simp [pyExpandTabsAux] at hc
  | cons d rest ih =>
    intro col hall c hc
    by_cases hd : d = '\t'
    · subst hd
      rw [show pyExpandTabsAux ('\t' :: rest) col
          = List.replicate (8 - col % 8) ' '
            ++ pyExpandTabsAux rest (col + (8 - col % 8)) from by
        simp [pyExpandTabsAux]] at hc
      rcases List.mem_append.mp hc with hrep | hrec
      · rw [List.eq_of_mem_replicate hrep]
        decide
      · exact ih _ (fun e he => hall e (by simp [he])) c hrec
    · by_cases hd2 : d = '\n' ∨ d = '\r'
      · rw [show pyExpandTabsAux (d :: rest) col = d :: pyExpandTabsAux rest 0 from by
          simp [pyExpandTabsAux, hd, hd2]] at hc
        rcases List.mem_cons.mp hc with rfl | hrec
        · exact hall c (by simp)
        · exact ih 0 (fun e he => hall e (by simp [he])) c hrec
      · rw [show pyExpandTabsAux (d :: rest) col
            = d :: pyExpandTabsAux rest (col + 1) from by
          simp [pyExpandTabsAux, hd, hd2]] at hc
        rcases List.mem_cons.mp hc with rfl | hrec
        · exact hall c (by simp)
        · exact ih (col + 1) (fun e he => hall e (by simp [he])) c hrec

/-- Tab expansion preserves the presence of a non-whitespace
character. -/
theorem pyExpandTabsAux_has_nonspace : ∀ (l : List Char) (col : ℕ),
    (∃ c ∈ l, pyIsSpace c = false) →
    ∃ c ∈ pyExpandTabsAux l col, pyIsSpace c = false := by
  intro l
  induction l with
  | nil =>
    intro col h
    simp at h
  | cons d rest ih =>
    intro col h
    obtain ⟨c0, hc0, hc0f⟩ := h
    by_cases hd : d = '\t'
    · subst hd
      have hc0r : c0 ∈ rest := by
        rcases List.mem_cons.mp hc0 with rfl | h2
        · exact absurd hc0f (by decide)
        · exact h2
      obtain ⟨c1, hc1, hc1f⟩ := ih (col + (8 - col % 8)) ⟨c0, hc0r, hc0f⟩
      refine ⟨c1, ?_, hc1f⟩
      rw [show pyExpandTabsAux ('\t' :: rest) col
          = List.replicate (8 - col % 8) ' '
            ++ pyExpandTabsAux rest (col + (8 - col % 8)) from by
        simp [pyExpandTabsAux]]
      exact List.mem_append.mpr (Or.inr hc1)
    · by_cases hd2 : d = '\n' ∨ d = '\r'
      · have hc0r : c0 ∈ rest := by
          rcases List.mem_cons.mp hc0 with heq | h2
          · rcases hd2 with h3 | h3
            · rw [heq, h3] at hc0f
              exact absurd hc0f (by decide)
            · rw [heq, h3] at hc0f
              exact absurd hc0f (by decide)
          · exact h2
        obtain ⟨c1, hc1, hc1f⟩ := ih 0 ⟨c0, hc0r, hc0f⟩
        refine ⟨c1, ?_, hc1f⟩
        rw [show pyExpandTabsAux (d :: rest) col = d :: pyExpandTabsAux rest 0 from by
          simp [pyExpandTabsAux, hd, hd2]]
        exact List.mem_cons.mpr (Or.inr hc1)
      · rcases List.mem_cons.mp hc0 with heq | h2
        · refine ⟨c0, ?_, hc0f⟩
          rw [show pyExpandTabsAux (d :: rest) col
              = d :: pyExpandTabsAux rest (col + 1) from by
            simp [pyExpandTabsAux, hd, hd2]]
          exact List.mem_cons.mpr (Or.inl heq)
        · obtain ⟨c1, hc1, hc1f⟩ := ih (col + 1) ⟨c0, h2, hc0f⟩
          refine ⟨c1, ?_, hc1f⟩
          rw [show pyExpandTabsAux (d :: rest) col
              = d :: pyExpandTabsAux rest (col + 1) from by
            simp [pyExpandTabsAux, hd, hd2]]
          exact List.mem_cons.mpr (Or.inr hc1)

/-- Munging a blank paragraph yields only whitespace characters. -/
theorem pyMunge_all_space (s : String) (h : pyStripEmpty s = true) :
    ∀ c ∈ (pyMunge s).toList, pyIsSpace c = true := by
  intro c hc
  have hexp := pyExpandTabsAux_all_space s.toList 0
    (by rw [pyStripEmpty, List.all_eq_true] at h; exact h)
  have htl : (pyMunge s).toList
      = (pyExpandTabsAux s.toList 0).map
          (fun c => if pyIsSpace c = true then ' ' else c) := rfl
  rw [htl] at hc
  obtain ⟨d, hd, rfl⟩ := List.mem_map.mp hc
  by_cases hdw : pyIsSpace d = true
  · rw [if_pos hdw]
    decide
  · exact absurd (hexp d hd) hdw

/-- Munging a non-blank paragraph keeps a non-whitespace character. -/
theorem pyMunge_has_nonspace (s : String) (h : pyStripEmpty s = false) :
    ∃ c ∈ (pyMunge s).toList, pyIsSpace c = false := by
  have h0 : ∃ c ∈ s.toList, pyIsSpace c = false := by
    rw [pyStripEmpty, List.all_eq_false] at h
    obtain ⟨c, hc, hcf⟩ := h
    exact ⟨c, hc, by simpa using hcf⟩
  obtain ⟨c1, hc1, hc1f⟩ := pyExpandTabsAux_has_nonspace s.toList 0 h0
  have htl : (pyMunge s).toList
      = (pyExpandTabsAux s.toList 0).map
          (fun c => if pyIsSpace c = true then ' ' else c) := rfl
  refine ⟨c1, ?_, hc1f⟩
  rw [htl]
  refine List.mem_map.mpr ⟨c1, hc1, ?_⟩
  rw [if_neg (by simp [hc1f])]

/-- Dropping the trailing chunk of a single whitespace chunk empties the
line. -/
theorem dropTrailingWS_singleton_space (s0 : String)
    (h : pyStripEmpty s0 = true) : dropTrailingWS [s0] = [] := by
  simp [dropTrailingWS, h]

/-- A line containing a non-whitespace chunk survives the trailing
drop. -/
theorem dropTrailingWS_ne_nil (chunks : List String) (s0 : String)
    (h0 : s0 ∈ chunks) (hs0 : pyStripEmpty s0 = false) :
    dropTrailingWS chunks ≠ [] := by
  cases chunks with
  | nil => simp at h0
  | cons a t =>
    cases t with
    | nil =>
      have ha : s0 = a := by simpa using h0
      subst ha
      simp [dropTrailingWS, hs0]
    | cons b t2 =>
      simp [dropTrailingWS]

/-- When every chunk fits on one line, `_wrap_chunks` emits at most one
line: the joined chunks with the trailing whitespace chunk dropped. -/
theorem wrapChunks_fits (w : ℕ) (chunks : List String)
    (hfit : (chunks.map String.length).sum ≤ w) :
    wrapChunks w false chunks =
      if dropTrailingWS chunks = [] then []
      else [concatChunks (dropTrailingWS chunks)] := by
  cases chunks with
  | nil =>
    rw [wrapChunks]
    simp [dropTrailingWS]
  | cons c rest =>
    have htake := takeLine_all w (c :: rest) 0 (by simpa using hfit)
    have hone : wrapOneLine w false (c :: rest)
        = (if dropTrailingWS (c :: rest) = [] then none
           else some (concatChunks (dropTrailingWS (c :: rest))), []) := by
      simp only [wrapOneLine, dropLeadingWS, htake]
      simp [breakChunk]
    by_cases hdt : dropTrailingWS (c :: rest) = []
    · rw [wrapChunks]
      simp only [hone, hdt, if_pos rfl]
      rw [wrapChunks]
      simp [hdt]
    · rw [wrapChunks]
      simp only [hone, hdt, if_neg hdt]
      rw [wrapChunks]
      simp [hdt]

/-- `textwrap.wrap` of a blank paragraph that fits the width is the
empty list. -/
theorem pyWrap_blank (w : ℕ) (s : String) (hb : pyStripEmpty s = true)
    (hfit : (pyMunge s).length ≤ w) : pyWrap w s = [] := by
  rw [pyWrap]
  have hall : ∀ c ∈ (pyMunge s).toList, pyIsSpace c = true := pyMunge_all_space s hb
  have hsum : ((chunksOf (pyMunge s)).map String.length).sum ≤ w := by
    rw [chunksOf_sum]
    exact hfit
  rcases chunksAux_all_space (pyMunge s).toList [] hall (by intro c hc; simp at hc)
    with hnil | ⟨s0, hone, hs0⟩
  · rw [chunksOf, hnil, wrapChunks]
    simp
  · rw [chunksOf] at hsum ⊢
    rw [hone] at hsum ⊢
    rw [wrapChunks_fits w [s0] hsum,
      if_pos (dropTrailingWS_singleton_space s0 hs0)]

/-- `textwrap.wrap` of a non-blank paragraph that fits the width is a
single line: the munged paragraph with trailing whitespace dropped. -/
theorem pyWrap_fits (w : ℕ) (s : String) (hnb : pyStripEmpty s = false)
    (hfit : (pyMunge s).length ≤ w) : pyWrap w s = [wrapSingleLine s] := by
  rw [pyWrap]
  have hsum : ((chunksOf (pyMunge s)).map String.length).sum ≤ w := by
    rw [chunksOf_sum]
    exact hfit
  obtain ⟨s0, hs0mem, hs0f⟩ := chunksAux_has_word (pyMunge s).toList []
    (Or.inl (pyMunge_has_nonspace s hnb))
  rw [wrapChunks_fits w _ hsum,
    if_neg (dropTrailingWS_ne_nil (chunksOf (pyMunge s)) s0 hs0mem hs0f)]
  rfl

/-- Claim C5: the renderer wraps at
`max(1, floor(box_width / max(1, avg_char_width)))` characters where
`avg_char_width` is the mean measured width of the 27-character
reference string; the drawn lines are exactly the computed line list;
and when every newline-separated paragraph fits within that wrap width
(its munged form is at most the wrap width), the line list has exactly
one line per input paragraph — a blank paragraph contributing one blank
output line — so the rendered line count equals the input line
count. -/
theorem justified_text_wrap_spec (font : Font) (x0 y0 x1 y1 : ℤ)
    (text : String) (fill : Color) (line_spacing : ℤ) :
    estCharsPerLine font (x1 - x0)
      = max 1 (pyInt (((x1 - x0 : ℤ) : ℚ) / max 1 (avgCharW font))).toNat ∧
    (draw_justified_text (x0, y0, x1, y1) text font fill line_spacing).map
        DrawOp.line
      = linesOf (estCharsPerLine font (x1 - x0)) text ∧
    ((∀ para ∈ pySplitlines text,
        (pyMunge para).length ≤ estCharsPerLine font (x1 - x0)) →
      linesOf (estCharsPerLine font (x1 - x0)) text
        = (pySplitlines text).map
            (fun para => if pyStripEmpty para then "" else wrapSingleLine para) ∧
      (linesOf (estCharsPerLine font (x1 - x0)) text).length
        = (pySplitlines text).length) := by
  refine ⟨rfl, draw_ops_map_line (x0, y0, x1, y1) text font fill line_spacing, ?_⟩
  intro hfits
  have hmap : linesOf (estCharsPerLine font (x1 - x0)) text
      = (pySplitlines text).map
          (fun para => if pyStripEmpty para then "" else wrapSingleLine para) := by
    rw [linesOf]
    apply flatMap_eq_map_of_singleton
    intro para hpara
    by_cases hb : pyStripEmpty para = true
    · rw [pyWrap_blank _ _ hb (hfits para hpara)]
      simp [hb]
    · have hb' : pyStripEmpty para = false := by
        cases hbb : pyStripEmpty para
        · rfl
        · exact absurd hbb hb
      rw [pyWrap_fits _ _ hb' (hfits para hpara)]
      simp [hb']
  exact ⟨hmap, by rw [hmap, List.length_map]⟩

/-- Witness for C5 at a concrete caption with a blank middle line. -/
theorem justified_text_wrap_spec_witness :
    linesOf (estCharsPerLine demoFont (730 - 20)) "HELLO\n\nWORLD"
      = (pySplitlines "HELLO\n\nWORLD").map
          (fun para => if pyStripEmpty para then "" else wrapSingleLine para) ∧
    (linesOf (estCharsPerLine demoFont (730 - 20)) "HELLO\n\nWORLD").length
      = (pySplitlines "HELLO\n\nWORLD").length :=
  (justified_text_wrap_spec demoFont 20 536 730 903 "HELLO\n\nWORLD"
      Color.white 6).2.2
    (by rw [estCharsPerLine_demoFont]; decide)
